import Mathlib

/-!
Verification of the ALLCools extraction core (`ALLCools/_extract_allc.py`):
the strand-merge reducer `_merge_cg_strand`, the context/strand router of
`extract_allc`, the MergeTmp finalization step, the ordered chunk merge of
`_extract_allc_parallel` / `_merge_gz_files`, and the region/parallel
dispatch logic.  Every definition is a shallow embedding of the
corresponding Python function.
-/

/-- One ALLC record: the seven tab-separated fields of one line, with the two
numeric fields parsed.  Field order matches the source indexing of the split
line: `[0]=chrom, [1]=pos, [2]=strand, [3]=context, [4]=mc, [5]=cov,
[6]=cnt`. -/
structure AllcLine where
  chrom : String
  pos : Int
  strand : String
  context : String
  mc : Int
  cov : Int
  cnt : String
deriving DecidableEq, Repr

/-- The merged record built in `_merge_cg_strand` when an adjacent
opposite-strand pair is found: `prev_line[:4] + [mc1+mc2, cov1+cov2, '1']`. -/
def mergedPair (p r : AllcLine) : AllcLine :=
  { chrom := p.chrom, pos := p.pos, strand := p.strand, context := p.context,
    mc := p.mc + r.mc, cov := p.cov + r.cov, cnt := "1" }

/-- The minus-to-plus coordinate rewrite of the non-pairing branch of
`_merge_cg_strand`: `[chrom, pos-1, '+'] + prev_line[3:]` when the held
record is on the minus strand, otherwise the record unchanged. -/
def minusToPlus (p : AllcLine) : AllcLine :=
  if p.strand = "-" then
    { chrom := p.chrom, pos := p.pos - 1, strand := "+", context := p.context,
      mc := p.mc, cov := p.cov, cnt := p.cnt }
  else p

/-- The loop of `_merge_cg_strand`, with the loop-local state made explicit:
`prevLine` is `prev_line` and `curChrom` is `cur_chrom`.  Mirrors the source
line by line: on a chromosome change the pending record is written verbatim;
an adjacent opposite-strand pair is collapsed into `mergedPair`; any other
pending record is written through `minusToPlus`.  Note that when the input
list is exhausted the loop simply ends: a still-pending `prevLine` is NOT
written. -/
def mergeCgStrandAux : Option AllcLine → Option String → List AllcLine → List AllcLine
  | _, _, [] => []
  | prevLine, curChrom, r :: rest =>
    if some r.chrom ≠ curChrom then
      (match prevLine with
       | some p => [p]
       | none => []) ++ mergeCgStrandAux (some r) (some r.chrom) rest
    else
      match prevLine with
      | none => mergeCgStrandAux (some r) curChrom rest
      | some p =>
        if p.pos + 1 = r.pos ∧ p.strand ≠ r.strand then
          mergedPair p r :: mergeCgStrandAux none curChrom rest
        else
          minusToPlus p :: mergeCgStrandAux (some r) curChrom rest

/-- `_merge_cg_strand`: the whole-file reducer, starting from the initial
state `prev_line = None`, `cur_chrom = None`. -/
def mergeCgStrand (l : List AllcLine) : List AllcLine :=
  mergeCgStrandAux none none l

/-- The three recognized strand modes, as returned by
`_check_strandness_parameter`. -/
inductive Strandness
  | Both | MergeTmp | Split
deriving DecidableEq, Repr

/-- The handle list `context_handle[context]` of `extract_allc`, by pattern
name: the requested patterns (each given with its expanded concrete-context
set, as produced by the external `parse_mc_pattern`) whose set contains the
record context, in pattern iteration order. -/
def matchingPatterns (pats : List (String × List String)) (ctx : String) : List String :=
  (pats.filter (fun p => p.2.contains ctx)).map Prod.fst

/-- The router of the `extract_allc` main loop, per record: the list of
output-group keys `(pattern, strand label)` the record is written to.  The
coverage cutoff `if int(cur_line[5]) > cov_cutoff: continue` is tested first;
only then is the handle map consulted (keyed on `(context, strand)` in Split
mode and on `context` otherwise; an unmatched key yields no handles). -/
def routeRecordKeys (s : Strandness) (pats : List (String × List String))
    (covCutoff : Int) (r : AllcLine) : List (String × String) :=
  if r.cov > covCutoff then []
  else
    match s with
    | .Split =>
      if r.strand = "+" then (matchingPatterns pats r.context).map (fun n => (n, "Watson"))
      else if r.strand = "-" then (matchingPatterns pats r.context).map (fun n => (n, "Crick"))
      else []
    | .Both => (matchingPatterns pats r.context).map (fun n => (n, "Both"))
    | .MergeTmp => (matchingPatterns pats r.context).map (fun n => (n, "MergeTmp"))

/-- Claim C2 evaluation: the code drops a pending record at end of input.  On
the single-record input `chr1 5 - CGA 3 7 1` the reducer emits nothing — the
lone minus-strand record is held in `prev_line` and never flushed after the
loop — while `minusToPlus` of that record (what the spec says should be
emitted) is `chr1 4 + CGA 3 7 1`. -/
theorem claim_C2_theorem :
    mergeCgStrand [⟨"chr1", 5, "-", "CGA", 3, 7, "1"⟩] = [] ∧
    minusToPlus ⟨"chr1", 5, "-", "CGA", 3, 7, "1"⟩ = ⟨"chr1", 4, "+", "CGA", 3, 7, "1"⟩ := by
  decide

/-- Claim C3 evaluation: a minus-strand record pending at a chromosome change
is written verbatim (strand still `-`, position unchanged), not rewritten to
the plus-strand convention; the second record is then dropped at end of
input. -/
theorem claim_C3_theorem :
    mergeCgStrand [⟨"chr1", 5, "-", "CGA", 3, 7, "1"⟩, ⟨"chr2", 10, "+", "CGT", 1, 2, "1"⟩]
      = [⟨"chr1", 5, "-", "CGA", 3, 7, "1"⟩] := by
  decide

/-- Claim C4 counterexample: records 2 and 3 of this input are consecutive,
on the same chromosome, at adjacent positions (2 and 3) and on opposite
strands, yet the output contains no merged record at position 2 with summed
counts: record 2 was already consumed by its merge with record 1, and record
3 is held and then dropped at end of input. -/
theorem claim_C4_counterexample :
    (mergeCgStrand [⟨"chr1", 1, "+", "CGA", 1, 1, "1"⟩,
                    ⟨"chr1", 2, "-", "CGT", 2, 3, "1"⟩,
                    ⟨"chr1", 3, "+", "CGA", 4, 5, "1"⟩]).countP
      (fun r => decide (r.pos = 2 ∧ r.mc = 6 ∧ r.cov = 8 ∧ r.cnt = "1")) = 0 := by
  decide

/-- Claim C4 (amended): when the reducer actually holds the first record of
the pair as `prev_line` and the second record arrives on the same chromosome
at position `prev.pos + 1` with a different strand, exactly one merged record
is emitted at the first record's position, with the two methylated counts
summed, the two total counts summed and the count field set to the literal
`1`. -/
theorem claim_C4_theorem (p r : AllcLine) (rest : List AllcLine)
    (hchrom : r.chrom = p.chrom) (hpos : p.pos + 1 = r.pos)
    (hstrand : p.strand ≠ r.strand) :
    mergeCgStrandAux (some p) (some p.chrom) (r :: rest) =
      { chrom := p.chrom, pos := p.pos, strand := p.strand, context := p.context,
        mc := p.mc + r.mc, cov := p.cov + r.cov, cnt := "1" }
        :: mergeCgStrandAux none (some p.chrom) rest := by
  simp [mergeCgStrandAux, hchrom, hpos, hstrand, mergedPair]

/-- Claim C4 witness: the amended pairing theorem at a concrete input. -/
theorem claim_C4_witness :
    mergeCgStrandAux (some ⟨"chr1", 2, "+", "CGA", 1, 1, "1"⟩) (some "chr1")
        [⟨"chr1", 3, "-", "CGT", 2, 3, "1"⟩]
      = [⟨"chr1", 2, "+", "CGA", 3, 4, "1"⟩] :=
  claim_C4_theorem ⟨"chr1", 2, "+", "CGA", 1, 1, "1"⟩ ⟨"chr1", 3, "-", "CGT", 2, 3, "1"⟩ []
    rfl (by decide) (by decide)

/-- Claim C6: a record over the coverage cutoff is routed to zero output
groups, in every strand mode and for every requested pattern configuration —
the cutoff test precedes the classification lookup, so the handle map is
never consulted for such a record. -/
theorem claim_C6_theorem (s : Strandness) (pats : List (String × List String))
    (covCutoff : Int) (r : AllcLine) (h : r.cov > covCutoff) :
    routeRecordKeys s pats covCutoff r = [] := by
  simp [routeRecordKeys, h]

/-- Claim C6 witness: a record with coverage 6 against cutoff 5, whose
context does match the requested pattern, is still routed nowhere. -/
theorem claim_C6_witness :
    routeRecordKeys Strandness.Both [("CGN", ["CGA"])] 5 ⟨"chr1", 1, "+", "CGA", 3, 6, "1"⟩ = [] :=
  claim_C6_theorem Strandness.Both [("CGN", ["CGA"])] 5 ⟨"chr1", 1, "+", "CGA", 3, 6, "1"⟩
    (by decide)

/-- The per-group content of a `Both` (or `MergeTmp` temporary) output group:
the records passing the coverage cutoff whose context lies in the pattern's
expanded context set, in input order.  This is what the non-Split loop of
`extract_allc` writes to that group's handle. -/
def bothGroupContent (ctxSet : List String) (covCutoff : Int)
    (l : List AllcLine) : List AllcLine :=
  l.filter (fun r => !decide (r.cov > covCutoff) && ctxSet.contains r.context)

/-- The per-group content of one `Split` output group (Watson when `strand`
is `+`, Crick when it is `-`): as `bothGroupContent` but additionally keyed
on the record strand. -/
def splitGroupContent (ctxSet : List String) (strand : String) (covCutoff : Int)
    (l : List AllcLine) : List AllcLine :=
  l.filter (fun r => !decide (r.cov > covCutoff) && ctxSet.contains r.context
    && r.strand == strand)

/-- The region-restricted input stream a chunk task reads: the records of the
chromosome whose position lies in the chunk's half-open interval. -/
def recordsInRegion (s e : Int) (l : List AllcLine) : List AllcLine :=
  l.filter (fun r => decide (s ≤ r.pos) && decide (r.pos < e))

/-- The chunk intervals generated from a first boundary and the list of
subsequent boundaries, in ascending chunk-id order: `intervalsOf b0 [b1, b2]
= [(b0, b1), (b1, b2)]`. -/
def intervalsOf : Int → List Int → List (Int × Int)
  | _, [] => []
  | s, e :: rest => (s, e) :: intervalsOf e rest

/-- The final boundary: the upper end of the last chunk interval. -/
def upperBound : Int → List Int → Int
  | b, [] => b
  | _, e :: rest => upperBound e rest

/-- The chunked-parallel content of one output group: each chunk extracts its
region-restricted slice of the input independently, and the partial outputs
are concatenated in ascending chunk-id order (the order of `intervalsOf`). -/
def chunkedGroupContent (extract : List AllcLine → List AllcLine)
    (b0 : Int) (bs : List Int) (l : List AllcLine) : List AllcLine :=
  ((intervalsOf b0 bs).map (fun se => extract (recordsInRegion se.1 se.2 l))).flatten

/-- Filtering commutes with region restriction. -/
theorem recordsInRegion_filter_comm (q : AllcLine → Bool) (s e : Int)
    (l : List AllcLine) :
    recordsInRegion s e (l.filter q) = (recordsInRegion s e l).filter q := by
  simp only [recordsInRegion, List.filter_filter]
  exact List.filter_congr (fun r _ => by
    cases hq : q r <;> cases hs : decide (s ≤ r.pos) <;> cases he : decide (r.pos < e) <;> simp)

/-- For a position-sorted list, the records below a boundary followed by the
records at or above it reassemble the list. -/
theorem sorted_filter_split (e : Int) :
    ∀ (l : List AllcLine), l.Pairwise (fun a b => a.pos ≤ b.pos) →
      l.filter (fun r => decide (r.pos < e)) ++ l.filter (fun r => decide (e ≤ r.pos)) = l := by
  intro l
  induction l with
  | nil => simp
  | cons h t ih =>
    intro hs
    rcases lt_or_le h.pos e with hlt | hge
    · have h1 : decide (h.pos < e) = true := by simpa using hlt
      have h2 : decide (e ≤ h.pos) = true → False := by simpa using not_le.mpr hlt
      simp only [List.filter_cons]
      rw [h1]
      cases h2' : decide (e ≤ h.pos)
      · simpa using ih hs.of_cons
      · exact absurd h2' (by simpa using not_le.mpr hlt)
    · have hall : ∀ x ∈ t, e ≤ x.pos := fun x hx =>
        le_trans hge ((List.pairwise_cons.mp hs).1 x hx)
      have h1 : (h :: t).filter (fun r => decide (r.pos < e)) = [] := by
        rw [List.filter_eq_nil_iff]
        intro a ha
        rcases List.mem_cons.mp ha with rfl | ha'
        · simpa using not_lt.mpr hge
        · simpa using not_lt.mpr (hall a ha')
      have h2 : (h :: t).filter (fun r => decide (e ≤ r.pos)) = h :: t := by
        rw [List.filter_eq_self]
        intro a ha
        rcases List.mem_cons.mp ha with rfl | ha'
        · simpa using hge
        · simpa using hall a ha'
      rw [h1, h2, List.nil_append]

/-- Every interval produced after a boundary `s` starts at or above `s`,
provided the boundary list ascends. -/
theorem intervalsOf_lb :
    ∀ (bs : List Int) (s : Int), List.Chain' (fun a b => a ≤ b) (s :: bs) →
      ∀ se ∈ intervalsOf s bs, s ≤ se.1 := by
  intro bs
  induction bs with
  | nil => intro s _ se hse; simp [intervalsOf] at hse
  | cons e rest ih =>
    intro s hchain se hse
    rcases List.mem_cons.mp (by simpa [intervalsOf] using hse) with rfl | hse'
    · exact le_refl s
    · have hse2 := ih e (List.Chain'.tail hchain) se hse'
      exact le_trans (List.chain'_cons.mp hchain).1 hse2

/-- Records below the start of all later chunks do not affect their region
queries: restricting to positions at or above `e` first is invisible to an
interval starting at `s ≥ e`. -/
theorem recordsInRegion_absorb (s e' e : Int) (he : e ≤ s) (l : List AllcLine) :
    recordsInRegion s e' (l.filter (fun r => decide (e ≤ r.pos))) =
      recordsInRegion s e' l := by
  simp only [recordsInRegion, List.filter_filter]
  exact List.filter_congr (fun r _ => by
    by_cases hs : s ≤ r.pos
    · have he2 : e ≤ r.pos := le_trans he hs
      simp [hs, he2]
    · simp [hs])

/-- Splitting a position-sorted, boundary-covered record list into ascending
chunk intervals and concatenating the per-chunk region queries in chunk order
reassembles the list. -/
theorem chunked_id :
    ∀ (bs : List Int) (b0 : Int) (l : List AllcLine),
      l.Pairwise (fun a b => a.pos ≤ b.pos) →
      List.Chain' (fun a b => a ≤ b) (b0 :: bs) →
      (∀ r ∈ l, b0 ≤ r.pos) → (∀ r ∈ l, r.pos < upperBound b0 bs) →
      chunkedGroupContent id b0 bs l = l := by
  intro bs
  induction bs with
  | nil =>
    intro b0 l _ _ hlo hhi
    have hl : l = [] := by
      cases l with
      | nil => rfl
      | cons h t =>
        exact absurd (hhi h (List.mem_cons_self h t))
          (not_lt.mpr (hlo h (List.mem_cons_self h t)))
    simp [hl, chunkedGroupContent, intervalsOf]
  | cons e rest ih =>
    intro b0 l hsort hchain hlo hhi
    have hstep : chunkedGroupContent id b0 (e :: rest) l =
        recordsInRegion b0 e l ++ chunkedGroupContent id e rest l := by
      simp [chunkedGroupContent, intervalsOf]
    have hA : recordsInRegion b0 e l = l.filter (fun r => decide (r.pos < e)) := by
      unfold recordsInRegion
      exact List.filter_congr (fun r hr => by simp [hlo r hr])
    have hB : chunkedGroupContent id e rest l =
        chunkedGroupContent id e rest (l.filter (fun r => decide (e ≤ r.pos))) := by
      unfold chunkedGroupContent
      congr 1
      refine List.map_congr_left (fun se hse => ?_)
      have hlb := intervalsOf_lb rest e (List.Chain'.tail hchain) se hse
      rw [recordsInRegion_absorb se.1 se.2 e hlb l]
    set l2 := l.filter (fun r => decide (e ≤ r.pos)) with hl2
    have hC : chunkedGroupContent id e rest l2 = l2 := by
      refine ih e l2 (List.Pairwise.filter _ hsort) (List.Chain'.tail hchain) ?_ ?_
      · intro r hr
        have := List.of_mem_filter hr
        simpa using this
      · intro r hr
        have hrl : r ∈ l := List.mem_of_mem_filter hr
        simpa [upperBound] using hhi r hrl
    rw [hstep, hA, hB, hC, hl2]
    exact sorted_filter_split e l hsort

/-- A per-record (stateless) extraction commutes with chunking: chunked
processing followed by in-order concatenation equals the single pass. -/
theorem chunked_extract_eq (q : AllcLine → Bool)
    (extract : List AllcLine → List AllcLine)
    (hext : ∀ m, extract m = m.filter q)
    (b0 : Int) (bs : List Int) (l : List AllcLine)
    (hsort : l.Pairwise (fun a b => a.pos ≤ b.pos))
    (hchain : List.Chain' (fun a b => a ≤ b) (b0 :: bs))
    (hlo : ∀ r ∈ l, b0 ≤ r.pos) (hhi : ∀ r ∈ l, r.pos < upperBound b0 bs) :
    chunkedGroupContent extract b0 bs l = extract l := by
  have h1 : chunkedGroupContent extract b0 bs l =
      chunkedGroupContent id b0 bs (l.filter q) := by
    unfold chunkedGroupContent
    congr 1
    refine List.map_congr_left (fun se _ => ?_)
    rw [hext, ← recordsInRegion_filter_comm]
    rfl
  rw [h1, hext]
  refine chunked_id bs b0 (l.filter q) (List.Pairwise.filter _ hsort) hchain ?_ ?_
  · intro r hr; exact hlo r (List.mem_of_mem_filter hr)
  · intro r hr; exact hhi r (List.mem_of_mem_filter hr)

/-- Claim C1 (amended): for every position-sorted input and every ascending
chunk partition covering it, the chunked-parallel path (each chunk extracted
independently, partial outputs concatenated in ascending chunk-id order)
yields the same `Both` and `Split` output-group content as a single
un-chunked pass.  (The `Merge` groups are NOT preserved by chunking when a
Watson/Crick pair straddles a chunk boundary — see the counterexample.) -/
theorem claim_C1_theorem (b0 : Int) (bs : List Int) (l : List AllcLine)
    (ctxSet : List String) (covCutoff : Int) (strand : String)
    (hsort : l.Pairwise (fun a b => a.pos ≤ b.pos))
    (hchain : List.Chain' (fun a b => a ≤ b) (b0 :: bs))
    (hlo : ∀ r ∈ l, b0 ≤ r.pos) (hhi : ∀ r ∈ l, r.pos < upperBound b0 bs) :
    chunkedGroupContent (bothGroupContent ctxSet covCutoff) b0 bs l =
      bothGroupContent ctxSet covCutoff l ∧
    chunkedGroupContent (splitGroupContent ctxSet strand covCutoff) b0 bs l =
      splitGroupContent ctxSet strand covCutoff l := by
  constructor
  · exact chunked_extract_eq _ (bothGroupContent ctxSet covCutoff) (fun m => rfl)
      b0 bs l hsort hchain hlo hhi
  · exact chunked_extract_eq _ (splitGroupContent ctxSet strand covCutoff) (fun m => rfl)
      b0 bs l hsort hchain hlo hhi

/-- Claim C1 witness: the chunked/single-pass agreement at a concrete sorted
input split into two chunks. -/
theorem claim_C1_witness :
    chunkedGroupContent (bothGroupContent ["CGA", "CGT"] 9999) 0 [2, 4]
        [⟨"chr1", 1, "+", "CGA", 1, 1, "1"⟩, ⟨"chr1", 3, "-", "CGT", 2, 3, "1"⟩] =
      bothGroupContent ["CGA", "CGT"] 9999
        [⟨"chr1", 1, "+", "CGA", 1, 1, "1"⟩, ⟨"chr1", 3, "-", "CGT", 2, 3, "1"⟩] ∧
    chunkedGroupContent (splitGroupContent ["CGA", "CGT"] "+" 9999) 0 [2, 4]
        [⟨"chr1", 1, "+", "CGA", 1, 1, "1"⟩, ⟨"chr1", 3, "-", "CGT", 2, 3, "1"⟩] =
      splitGroupContent ["CGA", "CGT"] "+" 9999
        [⟨"chr1", 1, "+", "CGA", 1, 1, "1"⟩, ⟨"chr1", 3, "-", "CGT", 2, 3, "1"⟩] :=
  claim_C1_theorem 0 [2, 4]
    [⟨"chr1", 1, "+", "CGA", 1, 1, "1"⟩, ⟨"chr1", 3, "-", "CGT", 2, 3, "1"⟩]
    ["CGA", "CGT"] 9999 "+" (by decide)
    (by simp [List.chain'_cons]) (by decide) (by decide)

/-- Claim C1 counterexample: a Watson/Crick CG pair straddling the chunk
boundary at position 101.  The single pass merges the pair into one record;
in the chunked run each chunk sees a lone record, which the reducer holds
and then drops at end of its input, so the chunked `Merge` content is empty
and differs from the single-pass content. -/
theorem claim_C1_counterexample :
    chunkedGroupContent (fun m => mergeCgStrand (bothGroupContent ["CGA", "CGT"] 9999 m))
        1 [101, 200]
        [⟨"chr1", 100, "+", "CGA", 5, 10, "1"⟩, ⟨"chr1", 101, "-", "CGT", 3, 7, "1"⟩] ≠
      mergeCgStrand (bothGroupContent ["CGA", "CGT"] 9999
        [⟨"chr1", 100, "+", "CGA", 5, 10, "1"⟩, ⟨"chr1", 101, "-", "CGT", 3, 7, "1"⟩]) := by
  decide

/-- Substring test on character lists, used to model the Python `in`
operator on strings. -/
def listContainsSub : List Char → List Char → Bool
  | needle, [] => needle.isPrefixOf []
  | needle, c :: rest => needle.isPrefixOf (c :: rest) || listContainsSub needle rest

/-- The Python expression `needle in hay` for strings. -/
def strContains (hay needle : String) : Bool :=
  listContainsSub needle.data hay.data

/-- Outcome of finalizing one MergeTmp temporary group in `extract_allc`:
the path of the file actually produced, and whether the Strand-Merge Reducer
was applied. -/
structure MergeTmpResult where
  producedPath : String
  reduced : Bool
deriving DecidableEq, Repr

/-- The MergeTmp finalization branch of `extract_allc`: if `'CG' in
mc_context and 'allc' in out_suffix`, run `_merge_cg_strand` into the
`-Merge.` path; otherwise rename the temporary file to the `-Both.` path
with no reduction. -/
def finalizeMergeTmp (outPre ctx suffix : String) : MergeTmpResult :=
  if strContains ctx "CG" && strContains suffix "allc" then
    { producedPath := outPre ++ "." ++ ctx ++ "-Merge." ++ suffix, reduced := true }
  else
    { producedPath := outPre ++ "." ++ ctx ++ "-Both." ++ suffix, reduced := false }

/-- The path recorded in `output_path_collect` for a MergeTmp-mode pattern:
`extract_allc` always advertises the `-Merge.` path under the key
`(mc_context, 'Merge', out_suffix)`. -/
def advertisedMergePath (outPre ctx suffix : String) : String :=
  outPre ++ "." ++ ctx ++ "-Merge." ++ suffix

/-- Claim C5 evaluation: in MergeTmp mode a CG pattern with allc output is
reduced into the `-Merge.` file, but a non-CG pattern is renamed to the
`-Both.` (not `-Merge.`) file, a CG pattern with bed5 output is not reduced
at all, and for the non-CG pattern the advertised return path differs from
the file actually produced. -/
theorem claim_C5_theorem :
    finalizeMergeTmp "out" "CGN" "allc.tsv.gz" =
      { producedPath := "out.CGN-Merge.allc.tsv.gz", reduced := true } ∧
    finalizeMergeTmp "out" "CHN" "allc.tsv.gz" =
      { producedPath := "out.CHN-Both.allc.tsv.gz", reduced := false } ∧
    finalizeMergeTmp "out" "CGN" "bed5.bed.gz" =
      { producedPath := "out.CGN-Both.bed5.bed.gz", reduced := false } ∧
    (finalizeMergeTmp "out" "CHN" "allc.tsv.gz").producedPath ≠
      advertisedMergePath "out" "CHN" "allc.tsv.gz" := by
  decide

/-- A chunk temporary file: its path and its (decompressed) line content. -/
structure GzFile where
  path : String
  content : List String
deriving DecidableEq, Repr

/-- The ordering key of the Ordered Merge Stage: ascending integer chunk id
(`sub_df['chunk_id'].astype(int).sort_values()`). -/
def chunkLE (a b : Nat × GzFile) : Prop := a.1 ≤ b.1

instance : DecidableRel chunkLE :=
  fun a b => inferInstanceAs (Decidable (a.1 ≤ b.1))

instance : IsTotal (Nat × GzFile) chunkLE :=
  ⟨fun a b => Nat.le_total a.1 b.1⟩

instance : IsTrans (Nat × GzFile) chunkLE :=
  ⟨fun _ _ _ h1 h2 => Nat.le_trans h1 h2⟩

/-- The sort step of `_extract_allc_parallel` for one output-group key: the
collected `(chunk_id, temp file)` pairs ordered by ascending chunk id. -/
def sortByChunkId (pairs : List (Nat × GzFile)) : List (Nat × GzFile) :=
  List.insertionSort chunkLE pairs

/-- `_merge_gz_files`: reads each file of the list in order, appending its
content to the output, and removes the file right after it is consumed.
Returns the concatenated content and the deleted paths, in consumption
order. -/
def mergeGzFiles : List GzFile → List String × List String
  | [] => ([], [])
  | f :: rest =>
    (f.content ++ (mergeGzFiles rest).1, f.path :: (mergeGzFiles rest).2)

/-- Unfolding of the `_merge_gz_files` loop over a whole file list. -/
theorem mergeGzFiles_spec (fs : List GzFile) :
    mergeGzFiles fs = ((fs.map GzFile.content).flatten, fs.map GzFile.path) := by
  induction fs with
  | nil => rfl
  | cons f rest ih => simp [mergeGzFiles, ih]

/-- Claim C7: for any collected `(chunk_id, temp file)` pairs of one output
group, the merge stage uses exactly the collected files reordered by
ascending chunk id (never the arrival order), concatenates their contents in
that order, and deletes every temporary file, each after it is consumed. -/
theorem claim_C7_theorem (pairs : List (Nat × GzFile)) :
    List.Sorted chunkLE (sortByChunkId pairs) ∧
    List.Perm (sortByChunkId pairs) pairs ∧
    mergeGzFiles ((sortByChunkId pairs).map Prod.snd) =
      ((((sortByChunkId pairs).map Prod.snd).map GzFile.content).flatten,
       ((sortByChunkId pairs).map Prod.snd).map GzFile.path) :=
  ⟨List.sorted_insertionSort chunkLE pairs, List.perm_insertionSort chunkLE pairs,
   mergeGzFiles_spec ((sortByChunkId pairs).map Prod.snd)⟩

/-- The Python `str.lower()` applied to the parameter tokens: per-character
lowercasing of the underlying character list. -/
def strToLower (s : String) : String := String.mk (s.data.map Char.toLower)

/-- The token set accepted by `_check_strandness_parameter` (after
lowercasing). -/
def strandTokens : List String := ["both", "b", "merge", "mergetmp", "m", "split", "s"]

/-- The token set accepted by `_check_out_format_parameter` (after
lowercasing). -/
def formatTokens : List String := ["allc", "bed5"]

/-- `_check_strandness_parameter`: lowercases its argument, maps recognized
tokens to the canonical mode label, and raises `ValueError` otherwise. -/
def checkStrandnessParameter (strandness : String) : Except String String :=
  let s := strToLower strandness
  if s ∈ (["both", "b"] : List String) then Except.ok "Both"
  else if s ∈ (["merge", "mergetmp", "m"] : List String) then Except.ok "MergeTmp"
  else if s ∈ (["split", "s"] : List String) then Except.ok "Split"
  else Except.error ("Unknown value for strandness: " ++ s)

/-- `_check_out_format_parameter`: lowercases its argument, maps recognized
tokens to the output suffix, and raises `ValueError` otherwise. -/
def checkOutFormatParameter (outFormat : String) : Except String String :=
  let o := strToLower outFormat
  if o = "allc" then Except.ok "allc.tsv.gz"
  else if o = "bed5" then Except.ok "bed5.bed.gz"
  else Except.error ("Unknown value for out_format: " ++ o)

/-- The output files `extract_allc` opens for writing, by mode: Watson and
Crick files per pattern in Split mode, one file per pattern otherwise. -/
def openedOutputPaths (outPre : String) (contexts : List String)
    (strandLabel suffix : String) : List String :=
  if strandLabel = "Split" then
    (contexts.map (fun c => [outPre ++ "." ++ c ++ "-Watson." ++ suffix,
                             outPre ++ "." ++ c ++ "-Crick." ++ suffix])).flatten
  else
    contexts.map (fun c => outPre ++ "." ++ c ++ "-" ++ strandLabel ++ "." ++ suffix)

/-- The setup sequence of `extract_allc`: the strandness parameter is
checked first, then the output format, and only if both succeed are the
output files opened.  An error short-circuits before any path is produced. -/
def extractAllcPlan (outPre : String) (contexts : List String)
    (strandness outFormat : String) : Except String (List String) :=
  match checkStrandnessParameter strandness with
  | Except.error e => Except.error e
  | Except.ok lbl =>
    match checkOutFormatParameter outFormat with
    | Except.error e => Except.error e
    | Except.ok suffix => Except.ok (openedOutputPaths outPre contexts lbl suffix)

/-- Claim C8: an unrecognized strandness token makes `extract_allc` raise a
configuration error before any output file is opened; with a recognized
strandness, an unrecognized output-format token likewise errors before any
file is opened; whereas a record whose context matches no requested
pattern's expanded set is routed to no group and raises nothing. -/
theorem claim_C8_theorem :
    (∀ (outPre : String) (contexts : List String) (outFormat strandness : String),
      strToLower strandness ∉ strandTokens →
      extractAllcPlan outPre contexts strandness outFormat =
        Except.error ("Unknown value for strandness: " ++ strToLower strandness)) ∧
    (∀ (outPre : String) (contexts : List String) (strandness outFormat : String),
      strToLower strandness ∈ strandTokens → strToLower outFormat ∉ formatTokens →
      extractAllcPlan outPre contexts strandness outFormat =
        Except.error ("Unknown value for out_format: " ++ strToLower outFormat)) ∧
    (∀ (s : Strandness) (pats : List (String × List String)) (covCutoff : Int)
      (r : AllcLine), (∀ p ∈ pats, p.2.contains r.context = false) →
      routeRecordKeys s pats covCutoff r = []) := by
  refine ⟨?_, ?_, ?_⟩
  · intro outPre contexts outFormat strandness h
    simp only [strandTokens, List.mem_cons, List.not_mem_nil, or_false, not_or] at h
    obtain ⟨h1, h2, h3, h4, h5, h6, h7⟩ := h
    simp [extractAllcPlan, checkStrandnessParameter, h1, h2, h3, h4, h5, h6, h7]
  · intro outPre contexts strandness outFormat hmem hf
    simp only [formatTokens, List.mem_cons, List.not_mem_nil, or_false, not_or] at hf
    obtain ⟨hf1, hf2⟩ := hf
    simp only [strandTokens, List.mem_cons, List.not_mem_nil, or_false] at hmem
    rcases hmem with h | h | h | h | h | h | h <;>
      simp [extractAllcPlan, checkStrandnessParameter, checkOutFormatParameter, h, hf1, hf2]
  · intro s pats covCutoff r h
    have hnil : List.filter (fun p => p.2.contains r.context) pats = [] := by
      rw [List.filter_eq_nil_iff]
      intro p hp hcon
      rw [h p hp] at hcon
      exact Bool.false_ne_true hcon
    have hm : matchingPatterns pats r.context = [] := by
      unfold matchingPatterns
      rw [hnil]
      rfl
    cases s <;> simp [routeRecordKeys, hm]

/-- Claim C8 witness: a bogus strandness token errors, a bogus output-format
token errors, and an unroutable record is silently skipped. -/
theorem claim_C8_witness :
    extractAllcPlan "out" ["CGN"] "bogus" "allc" =
      Except.error ("Unknown value for strandness: " ++ strToLower "bogus") ∧
    extractAllcPlan "out" ["CGN"] "both" "vcf" =
      Except.error ("Unknown value for out_format: " ++ strToLower "vcf") ∧
    routeRecordKeys Strandness.Both [("CGN", ["CGA"])] 9999
      ⟨"chr1", 1, "+", "AAA", 1, 1, "1"⟩ = [] :=
  ⟨claim_C8_theorem.1 "out" ["CGN"] "allc" "bogus" (by decide),
   claim_C8_theorem.2.1 "out" ["CGN"] "both" "vcf" (by decide) (by decide),
   claim_C8_theorem.2.2 Strandness.Both [("CGN", ["CGA"])] 9999
     ⟨"chr1", 1, "+", "AAA", 1, 1, "1"⟩ (by decide)⟩

/-- The number of writes of the group key `(a, b)` produced by mapping the
matched pattern names to group keys equals the number of occurrences of `a`
among the matched names. -/
theorem countP_map_pairSnd (b : String) (l : List String) (a : String) :
    (l.map (fun n => (n, b))).countP (fun k => decide (k = (a, b))) =
      l.countP (fun n => decide (n = a)) := by
  induction l with
  | nil => rfl
  | cons x xs ih =>
    simp only [List.map_cons, List.countP_cons, ih]
    by_cases h : x = a <;> simp [h, Prod.ext_iff]

/-- In a duplicate-free list, a member occurs exactly once. -/
theorem nodup_countP_eq_one (a : String) :
    ∀ (l : List String), l.Nodup → a ∈ l →
      l.countP (fun n => decide (n = a)) = 1 := by
  intro l
  induction l with
  | nil => intro _ h; cases h
  | cons x xs ih =>
    intro hnd hmem
    rcases List.mem_cons.mp hmem with rfl | hmem2
    · have hnotin : a ∉ xs := (List.nodup_cons.mp hnd).1
      have hz : xs.countP (fun n => decide (n = a)) = 0 := by
        rw [List.countP_eq_zero]
        intro y hy
        simp only [decide_eq_true_eq]
        intro he
        exact hnotin (he ▸ hy)
      simp [List.countP_cons, hz]
    · have hne : x ≠ a := by
        rintro rfl
        exact (List.nodup_cons.mp hnd).1 hmem2
      have hxs := ih (List.nodup_cons.mp hnd).2 hmem2
      simp [List.countP_cons, hxs, hne]

/-- Claim C9: a record passing the cutoff whose context lies in the expanded
sets of two distinct requested patterns is written exactly once into each of
the two patterns' output groups — once per matching pattern, with no
duplication inside a group (the requested pattern list is deduplicated by
`list(set(mc_contexts))`, so pattern names are distinct). -/
theorem claim_C9_theorem (pats : List (String × List String)) (covCutoff : Int)
    (r : AllcLine) (p1 p2 : String × List String)
    (hnodup : (pats.map Prod.fst).Nodup)
    (h1 : p1 ∈ pats) (h2 : p2 ∈ pats) (hne : p1.1 ≠ p2.1)
    (hcov : ¬ r.cov > covCutoff)
    (hc1 : p1.2.contains r.context = true) (hc2 : p2.2.contains r.context = true) :
    (routeRecordKeys Strandness.Both pats covCutoff r).countP
      (fun k => decide (k = (p1.1, "Both"))) = 1 ∧
    (routeRecordKeys Strandness.Both pats covCutoff r).countP
      (fun k => decide (k = (p2.1, "Both"))) = 1 := by
  have key : ∀ p : String × List String, p ∈ pats → p.2.contains r.context = true →
      (routeRecordKeys Strandness.Both pats covCutoff r).countP
        (fun k => decide (k = (p.1, "Both"))) = 1 := by
    intro p hp hc
    have hroute : routeRecordKeys Strandness.Both pats covCutoff r =
        (matchingPatterns pats r.context).map (fun n => (n, "Both")) := by
      simp [routeRecordKeys, hcov]
    rw [hroute, countP_map_pairSnd]
    have hsub : (matchingPatterns pats r.context).Sublist (pats.map Prod.fst) :=
      List.Sublist.map Prod.fst (List.filter_sublist pats)
    have hnd : (matchingPatterns pats r.context).Nodup := List.Nodup.sublist hsub hnodup
    have hmem : p.1 ∈ matchingPatterns pats r.context :=
      List.mem_map.mpr ⟨p, List.mem_filter.mpr ⟨hp, hc⟩, rfl⟩
    exact nodup_countP_eq_one p.1 _ hnd hmem
  exact ⟨key p1 h1 hc1, key p2 h2 hc2⟩

/-- Claim C9 witness: a record with context CAN matched by both requested
patterns CHN and CAN is written once into each of the two groups. -/
theorem claim_C9_witness :
    (routeRecordKeys Strandness.Both [("CHN", ["CAN", "CAA"]), ("CAN", ["CAN"])] 9999
        ⟨"chr1", 1, "+", "CAN", 2, 3, "1"⟩).countP
      (fun k => decide (k = ("CHN", "Both"))) = 1 ∧
    (routeRecordKeys Strandness.Both [("CHN", ["CAN", "CAA"]), ("CAN", ["CAN"])] 9999
        ⟨"chr1", 1, "+", "CAN", 2, 3, "1"⟩).countP
      (fun k => decide (k = ("CAN", "Both"))) = 1 :=
  claim_C9_theorem [("CHN", ["CAN", "CAA"]), ("CAN", ["CAN"])] 9999
    ⟨"chr1", 1, "+", "CAN", 2, 3, "1"⟩ ("CHN", ["CAN", "CAA"]) ("CAN", ["CAN"])
    (by decide) (by decide) (by decide) (by decide) (by decide) (by decide) (by decide)

/-- The region/parallel dispatch at the top of `extract_allc`: `parallel`
starts false; only when `region is None` and a chromosome-size table is
given does the region default to the whole genome, and only then does
`cpu > 1` enable the chunked-parallel path. -/
def determineRegionParallel (region : Option String) (chromRegion : Option String)
    (cpu : Int) : Option String × Bool :=
  match region with
  | some reg => (some reg, false)
  | none =>
    match chromRegion with
    | some cr => (some cr, decide (cpu > 1))
    | none => (none, false)

/-- Claim C10: with an explicit region the run is single-pass regardless of
cpu; the chunked-parallel path is taken exactly when no region is given, a
chromosome-size table is given, and cpu exceeds 1. -/
theorem claim_C10_theorem :
    (∀ (reg : String) (cs : Option String) (cpu : Int),
      (determineRegionParallel (some reg) cs cpu).2 = false) ∧
    (∀ (region cs : Option String) (cpu : Int),
      (determineRegionParallel region cs cpu).2 = true ↔
        (region = none ∧ cs.isSome = true ∧ cpu > 1)) := by
  constructor
  · intro reg cs cpu; rfl
  · intro region cs cpu
    cases region with
    | some reg => simp [determineRegionParallel]
    | none =>
      cases cs with
      | some c => simp [determineRegionParallel]
      | none => simp [determineRegionParallel]
